import Mathlib

/-!
Shallow embedding of `src/util.rs` of the ff-node-monitor notification core:
hex decoding of the signing key, the `url_query` helper, email-address form
validation, and email composition from a rendered template text.
-/

namespace FFMonitor

/-! ## Hex decoding (`hex::decode`, used by `hex_signing_key::deserialize`) -/

/-- Boolean test for a hexadecimal digit character (`0-9`, `a-f`, `A-F`),
the character set accepted by `hex::decode`. -/
def isHexDigit (c : Char) : Bool :=
  ('0' ≤ c && c ≤ '9') || ('a' ≤ c && c ≤ 'f') || ('A' ≤ c && c ≤ 'F')

/-- Numeric value of a hexadecimal digit character, `none` on a non-hex
character, mirroring the per-character table of `hex::decode`. -/
def hexVal (c : Char) : Option Nat :=
  if '0' ≤ c && c ≤ '9' then some (c.toNat - 48)
  else if 'a' ≤ c && c ≤ 'f' then some (c.toNat - 87)
  else if 'A' ≤ c && c ≤ 'F' then some (c.toNat - 55)
  else none

/-- Embedding of `hex::decode`: consumes two hex digits per output byte,
failing on an odd-length input or on any non-hex character. -/
def hexDecodeList : List Char → Option (List Nat)
  | [] => some []
  | [_] => none
  | c1 :: c2 :: rest =>
    match hexVal c1, hexVal c2, hexDecodeList rest with
    | some h, some l, some r => some ((16 * h + l) :: r)
    | _, _, _ => none

/-- Key material produced by `ring::hmac::SigningKey::new(&digest::SHA256, bytes)`:
the raw key bytes, with the digest algorithm fixed to SHA-256 by the caller. -/
structure SigningKey where
  bytes : List Nat
deriving DecidableEq, Repr

namespace hex_signing_key

/-- Embedding of `hex_signing_key::deserialize`: hex-decode the configured
string and wrap the decoded bytes as HMAC-SHA256 key material; `none` models
the `D::Error` returned when `hex::decode` fails. -/
def deserialize (s : String) : Option SigningKey :=
  (hexDecodeList s.data).map SigningKey.mk

end hex_signing_key

/-- Lowercase hexadecimal digit character for a value below 16, as produced
by `hex::encode`. -/
def hexDigitChar (n : Nat) : Char :=
  Char.ofNat (if n < 10 then 48 + n else 87 + n)

/-- Reference encoding of bytes to lowercase hex, two digits per byte,
following `hex::encode` (the inverse direction of `hex::decode`). -/
def hexEncodeList : List Nat → List Char
  | [] => []
  | x :: rest => hexDigitChar (x / 16) :: hexDigitChar (x % 16) :: hexEncodeList rest

/-- Reference hex encoding of a byte sequence as a string. -/
def hexEncode (b : List Nat) : String :=
  String.mk (hexEncodeList b)

/-! ## Character-level string splitting

Rust's `str::split(sep)` and `str::splitn(n, sep)` modelled on `List Char`. -/

/-- Split off everything before the first occurrence of `sep`: `none` when
`sep` does not occur, otherwise the pieces strictly before and after it. -/
def splitFirst (sep : Char) : List Char → Option (List Char × List Char)
  | [] => none
  | c :: rest =>
    if c = sep then some ([], rest)
    else (splitFirst sep rest).map fun p => (c :: p.1, p.2)

/-- Embedding of Rust `str::split(sep).collect()`: the full list of pieces
between occurrences of `sep`, with empty pieces kept. -/
def charSplit (sep : Char) : List Char → List (List Char)
  | [] => [[]]
  | c :: rest =>
    if c = sep then [] :: charSplit sep rest
    else
      match charSplit sep rest with
      | [] => [[c]]
      | p :: ps => (c :: p) :: ps

/-- Embedding of Rust `str::splitn(n, sep).collect()`: like `charSplit` but
at most `n` pieces; the last piece keeps any further separators. -/
def rustSplitn (sep : Char) : Nat → List Char → List (List Char)
  | 0, _ => []
  | 1, s => [s]
  | n + 2, s =>
    match splitFirst sep s with
    | none => [s]
    | some p => p.1 :: rustSplitn sep (n + 1) p.2

/-! ## Percent decoding (`RawStr::url_decode` of Rocket)

`url_decode` first replaces `+` by a space, then percent-decodes the bytes
and validates the result as UTF-8, failing with a `Utf8Error` otherwise. -/

/-- UTF-8 encoding of a single Unicode scalar value. -/
def utf8EncodeChar (n : Nat) : List Nat :=
  if n < 0x80 then [n]
  else if n < 0x800 then [0xC0 + n / 64, 0x80 + n % 64]
  else if n < 0x10000 then [0xE0 + n / 4096, 0x80 + n / 64 % 64, 0x80 + n % 64]
  else [0xF0 + n / 262144, 0x80 + n / 4096 % 64, 0x80 + n / 64 % 64, 0x80 + n % 64]

/-- Test for a UTF-8 continuation byte (`10xxxxxx`). -/
def isCont (b : Nat) : Bool :=
  0x80 ≤ b && b < 0xC0

/-- UTF-8 decoder with the standard validity checks: rejects stray
continuation bytes, overlong encodings, surrogates and values above
`0x10FFFF`, as `str::from_utf8` does. -/
def utf8Decode : List Nat → Option (List Char)
  | [] => some []
  | b :: rest =>
    if b < 0x80 then
      match utf8Decode rest with
      | some cs => some (Char.ofNat b :: cs)
      | none => none
    else if b < 0xC2 then none
    else if b < 0xE0 then
      match rest with
      | c1 :: rest1 =>
        if isCont c1 then
          match utf8Decode rest1 with
          | some cs => some (Char.ofNat ((b - 0xC0) * 64 + (c1 - 0x80)) :: cs)
          | none => none
        else none
      | _ => none
    else if b < 0xF0 then
      match rest with
      | c1 :: c2 :: rest2 =>
        if isCont c1 && isCont c2 && !(b == 0xE0 && c1 < 0xA0) && !(b == 0xED && 0xA0 ≤ c1) then
          match utf8Decode rest2 with
          | some cs =>
            some (Char.ofNat ((b - 0xE0) * 4096 + (c1 - 0x80) * 64 + (c2 - 0x80)) :: cs)
          | none => none
        else none
      | _ => none
    else if b < 0xF5 then
      match rest with
      | c1 :: c2 :: c3 :: rest3 =>
        if isCont c1 && isCont c2 && isCont c3 &&
            !(b == 0xF0 && c1 < 0x90) && !(b == 0xF4 && 0x90 ≤ c1) then
          match utf8Decode rest3 with
          | some cs =>
            some (Char.ofNat
              ((b - 0xF0) * 262144 + (c1 - 0x80) * 4096 + (c2 - 0x80) * 64 + (c3 - 0x80)) :: cs)
          | none => none
        else none
      | _ => none
    else none

/-- Percent-decode to raw bytes, as the `percent-encoding` crate does: a `%`
followed by two hex digits becomes one byte; any other character passes
through as its UTF-8 bytes (an incomplete escape keeps the `%` literally). -/
def pctBytes : List Char → List Nat
  | [] => []
  | '%' :: h1 :: h2 :: rest =>
    match hexVal h1, hexVal h2 with
    | some a, some b => (16 * a + b) :: pctBytes rest
    | _, _ => utf8EncodeChar '%'.toNat ++ pctBytes (h1 :: h2 :: rest)
  | c :: rest => utf8EncodeChar c.toNat ++ pctBytes rest

/-- Embedding of Rocket's `RawStr::url_decode`: replace `+` by a space, then
percent-decode and re-validate as UTF-8; `none` models the `Utf8Error`. -/
def urlDecode (v : String) : Option String :=
  (utf8Decode (pctBytes (v.data.map fun c => if c = '+' then ' ' else c))).map String.mk

/-! ## `EmailAddress` and `from_form_value` -/

/-- Validated wrapper around an email-address string, as in the source. -/
structure EmailAddress where
  val : String
deriving DecidableEq, Repr

/-- Error cases of `EmailAddress::from_form_value`. The last three model the
`bail!` calls (in source order: wrong number of `@`-separated parts, empty
user part, no `.` in the domain part); `utf8Error` models `url_decode`
failing on the raw form value. -/
inductive ValidationError where
  | utf8Error
  | malformedAddress
  | emptyLocalPart
  | missingDomainDot
deriving DecidableEq, Repr

instance {ε α : Type} [DecidableEq ε] [DecidableEq α] : DecidableEq (Except ε α)
  | Except.ok a, Except.ok b =>
    if h : a = b then isTrue (by rw [h]) else isFalse fun hc => h (Except.ok.inj hc)
  | Except.ok _, Except.error _ => isFalse fun hc => Except.noConfusion hc
  | Except.error _, Except.ok _ => isFalse fun hc => Except.noConfusion hc
  | Except.error e, Except.error f =>
    if h : e = f then isTrue (by rw [h]) else isFalse fun hc => h (Except.error.inj hc)

namespace EmailAddress

/-- Embedding of `EmailAddress::from_form_value`: percent-decode the raw form
value, split the decoded string on `@`, apply the three syntactic checks, and
on success wrap the decoded string unchanged. -/
def from_form_value (v : String) : Except ValidationError EmailAddress :=
  match urlDecode v with
  | none => Except.error ValidationError.utf8Error
  | some s =>
    let email_parts := charSplit '@' s.data
    if email_parts.length ≠ 2 then Except.error ValidationError.malformedAddress
    else if email_parts.getD 0 [] = [] then Except.error ValidationError.emptyLocalPart
    else if '.' ∉ email_parts.getD 1 [] then Except.error ValidationError.missingDomainDot
    else Except.ok (EmailAddress.mk s)

end EmailAddress

/-! ## `EmailBuilder::email` (message composition) -/

/-- The message fields set by `EmailBuilder::email` on the produced
`lettre_email::EmailBuilder`: the "From" mailbox (routable address paired
with a display name), the subject and the text body. -/
structure EmailMessage where
  from_addr : String
  from_display_name : String
  subject : String
  body : String
deriving DecidableEq, Repr

/-- Recoverable composition errors named by the specification. The source's
`email` never constructs one after rendering succeeded; the constructor is
modelled from the spec so that the error channel of the Rust
`Result<lettre_email::EmailBuilder, Error>` is representable. -/
inductive ComposeError where
  | missingField
deriving DecidableEq, Repr

/-- How a composition can abort the request: an out-of-bounds `Vec` index
(`email_parts[i]`), or the `assert!` on the first template line. -/
inductive PanicKind where
  | indexOutOfBounds
  | assertionFailed
deriving DecidableEq, Repr

/-- Outcome of `EmailBuilder::email` on an already-rendered text: the `Ok`
value, a recoverable `Err`, or a panic (which unwinds the request). -/
inductive ComposeResult where
  | ok (m : EmailMessage)
  | recoverableError (e : ComposeError)
  | panic (k : PanicKind)
deriving DecidableEq, Repr

namespace EmailBuilder

/-- Embedding of `EmailBuilder::email` applied to the rendered template text:
`splitn(4, '\n')`, the four indexings `email_parts[0..=3]` (a panic when
fewer than 4 parts exist), the `assert!` that the first part is empty, and
the construction of the message with the configured sender address
`config.ui.email_from` as the routable "From" address. -/
def email (email_from : String) (email_text : String) : ComposeResult :=
  let email_parts := rustSplitn '\n' 4 email_text.data
  if email_parts.length < 4 then ComposeResult.panic PanicKind.indexOutOfBounds
  else if email_parts.getD 0 [] = [] then
    ComposeResult.ok
      (EmailMessage.mk email_from (String.mk (email_parts.getD 1 []))
        (String.mk (email_parts.getD 2 [])) (String.mk (email_parts.getD 3 [])))
  else ComposeResult.panic PanicKind.assertionFailed

end EmailBuilder

/-! ## `url_query!` (signed-link construction) -/

/-- Uppercase hexadecimal digit, as used by percent-encoding serializers. -/
def upperHexDigitChar (n : Nat) : Char :=
  Char.ofNat (if n < 10 then 48 + n else 55 + n)

/-- Percent-encode raw bytes with uppercase hex digits. -/
def pctEncodeBytes : List Nat → List Char
  | [] => []
  | b :: rest => '%' :: upperHexDigitChar (b / 16) :: upperHexDigitChar (b % 16) :: pctEncodeBytes rest

/-- Encoding of one character by the `application/x-www-form-urlencoded`
serializer used by `Url::query_pairs_mut().append_pair`: a space becomes
`+`, ASCII alphanumerics and `*-._` pass through, and any other character is
percent-encoded byte by byte. -/
def formEncodeChar (c : Char) : List Char :=
  if c = ' ' then ['+']
  else if ('0' ≤ c && c ≤ '9') || ('a' ≤ c && c ≤ 'z') || ('A' ≤ c && c ≤ 'Z')
      || c = '*' || c = '-' || c = '.' || c = '_' then [c]
  else pctEncodeBytes (utf8EncodeChar c.toNat)

/-- Form-urlencode every character of a string. -/
def formEncodeList : List Char → List Char
  | [] => []
  | c :: rest => formEncodeChar c ++ formEncodeList rest

/-- Form-urlencoding on strings. -/
def formEncode (s : String) : String :=
  String.mk (formEncodeList s.data)

/-- The parts of a `url::Url` that `url_query!` touches: everything before
the query, and the query string when one is present. -/
structure UrlState where
  base : String
  query : Option String
deriving DecidableEq, Repr

/-- Embedding of `Serializer::append_pair` of the `url` crate: append
`name=value`, both form-urlencoded, to the query, separated from an already
present query by `&`. -/
def append_pair (u : UrlState) (name value : String) : UrlState :=
  UrlState.mk u.base
    (match u.query with
     | none => some (formEncode name ++ "=" ++ formEncode value)
     | some q => some (q ++ "&" ++ formEncode name ++ "=" ++ formEncode value))

/-- Serialize a `UrlState` back to a string: `base?query` when a query is
present, plain `base` otherwise. -/
def urlToString (u : UrlState) : String :=
  match u.query with
  | none => u.base
  | some q => u.base ++ "?" ++ q

/-- Embedding of the `url_query!` macro on a base URL without a query: chain
one `append_pair` call per named parameter, left to right in the order
written in the macro invocation. -/
def url_query (base : String) (params : List (String × String)) : String :=
  urlToString (params.foldl (fun u p => append_pair u p.1 p.2) (UrlState.mk base none))

/-! ## Supporting lemmas -/

/-! ### Facts about hex decoding -/

theorem hexVal_isSome_eq_isHexDigit (c : Char) : (hexVal c).isSome = isHexDigit c := by
  unfold hexVal isHexDigit
  by_cases h1 : ('0' ≤ c && c ≤ '9') = true <;>
    by_cases h2 : ('a' ≤ c && c ≤ 'f') = true <;>
      by_cases h3 : ('A' ≤ c && c ≤ 'F') = true <;>
        simp [h1, h2, h3]

theorem hexDecodeList_isSome :
    ∀ l : List Char, (hexDecodeList l).isSome = (decide (l.length % 2 = 0) && l.all isHexDigit)
  | [] => by simp [hexDecodeList]
  | [c] => by simp [hexDecodeList, Nat.mod_self]
  | c1 :: c2 :: rest => by
    have ih := hexDecodeList_isSome rest
    have h1 := hexVal_isSome_eq_isHexDigit c1
    have h2 := hexVal_isSome_eq_isHexDigit c2
    have hmod : decide ((rest.length + 1 + 1) % 2 = 0) = decide (rest.length % 2 = 0) :=
      decide_eq_decide.mpr (by omega)
    have key : (hexDecodeList (c1 :: c2 :: rest)).isSome
        = ((hexVal c1).isSome && ((hexVal c2).isSome && (hexDecodeList rest).isSome)) := by
      simp only [hexDecodeList]
      cases hexVal c1 <;> cases hexVal c2 <;> cases hexDecodeList rest <;> rfl
    rw [key, h1, h2, ih]
    simp only [List.length_cons, List.all_cons, hmod]
    cases isHexDigit c1 <;> cases isHexDigit c2 <;>
      cases decide (rest.length % 2 = 0) <;> cases rest.all isHexDigit <;> rfl

theorem hexVal_hexDigitChar : ∀ n : Nat, n < 16 → hexVal (hexDigitChar n) = some n := by
  decide

theorem hexDecodeList_hexEncodeList :
    ∀ b : List Nat, (∀ x ∈ b, x < 256) → hexDecodeList (hexEncodeList b) = some b
  | [], _ => rfl
  | x :: rest, h => by
    have hx : x < 256 := h x (List.mem_cons_self x rest)
    have hdiv : x / 16 < 16 := by omega
    have hmod : x % 16 < 16 := by omega
    have ih := hexDecodeList_hexEncodeList rest (fun y hy => h y (List.mem_cons_of_mem x hy))
    have hx16 : 16 * (x / 16) + x % 16 = x := Nat.div_add_mod x 16
    simp only [hexEncodeList, hexDecodeList, hexVal_hexDigitChar _ hdiv,
      hexVal_hexDigitChar _ hmod, ih, hx16]

theorem splitFirst_eq_none (sep : Char) :
    ∀ s : List Char, splitFirst sep s = none ↔ sep ∉ s
  | [] => by simp [splitFirst]
  | c :: rest => by
    by_cases hc : c = sep
    · subst hc
      simp [splitFirst]
    · have ih := splitFirst_eq_none sep rest
      cases h : splitFirst sep rest <;>
        simp_all [splitFirst, hc, Ne.symm hc]

theorem splitFirst_structure (sep : Char) :
    ∀ s pre post, splitFirst sep s = some (pre, post) →
      s = pre ++ sep :: post ∧ sep ∉ pre
  | [], pre, post => by simp [splitFirst]
  | c :: rest, pre, post => by
    intro h
    by_cases hc : c = sep
    · subst hc
      simp only [splitFirst, reduceIte, Option.some.injEq, Prod.mk.injEq] at h
      obtain ⟨h1, h2⟩ := h
      subst h1
      subst h2
      simp
    · simp only [splitFirst, if_neg hc, Option.map_eq_some'] at h
      obtain ⟨p, hp, hf⟩ := h
      have ih := splitFirst_structure sep rest p.1 p.2 (by rw [hp])
      rw [Prod.mk.injEq] at hf
      obtain ⟨h1, h2⟩ := hf
      subst h1
      subst h2
      refine ⟨by rw [List.cons_append, ← ih.1], ?_⟩
      intro hm
      rcases List.mem_cons.mp hm with hs | hs
      · exact hc hs.symm
      · exact ih.2 hs

theorem splitFirst_append (sep : Char) :
    ∀ pre post, sep ∉ pre → splitFirst sep (pre ++ sep :: post) = some (pre, post)
  | [], post, _ => by simp [splitFirst]
  | c :: pre, post, h => by
    have hc : ¬c = sep := fun hcs => h (hcs ▸ List.mem_cons_self c pre)
    have ih := splitFirst_append sep pre post (fun hm => h (List.mem_cons_of_mem c hm))
    simp [splitFirst, hc, ih]

theorem charSplit_ne_nil (sep : Char) : ∀ s : List Char, charSplit sep s ≠ []
  | [] => by simp [charSplit]
  | c :: rest => by
    by_cases hc : c = sep
    · simp [charSplit, hc]
    · simp only [charSplit, if_neg hc]
      cases charSplit sep rest <;> simp

theorem charSplit_of_not_mem (sep : Char) :
    ∀ s : List Char, sep ∉ s → charSplit sep s = [s]
  | [], _ => rfl
  | c :: rest, h => by
    have hc : ¬c = sep := fun hcs => h (hcs ▸ List.mem_cons_self c rest)
    have ih := charSplit_of_not_mem sep rest (fun hm => h (List.mem_cons_of_mem c hm))
    simp [charSplit, hc, ih]

theorem charSplit_append (sep : Char) :
    ∀ pre post, sep ∉ pre →
      charSplit sep (pre ++ sep :: post) = pre :: charSplit sep post
  | [], post, _ => by simp [charSplit]
  | c :: pre, post, h => by
    have hc : ¬c = sep := fun hcs => h (hcs ▸ List.mem_cons_self c pre)
    have ih := charSplit_append sep pre post (fun hm => h (List.mem_cons_of_mem c hm))
    simp only [List.cons_append, charSplit, if_neg hc, List.append_eq, ih]

theorem charSplit_length (sep : Char) :
    ∀ s : List Char, (charSplit sep s).length = s.count sep + 1
  | [] => by simp [charSplit]
  | c :: rest => by
    have ih := charSplit_length sep rest
    by_cases hc : c = sep
    · subst hc
      simp [charSplit, ih, List.count_cons]
    · simp only [charSplit, if_neg hc]
      have hne := charSplit_ne_nil sep rest
      cases h : charSplit sep rest with
      | nil => exact absurd h hne
      | cons p ps =>
        rw [h] at ih
        simp only [List.length_cons] at ih ⊢
        rw [List.count_cons_of_ne (fun hcs => hc hcs.symm)]
        omega

theorem charSplit_head (sep : Char) :
    ∀ s : List Char, (charSplit sep s).headD [] = s.takeWhile (fun c => c ≠ sep)
  | [] => by simp [charSplit]
  | c :: rest => by
    have ih := charSplit_head sep rest
    by_cases hc : c = sep
    · subst hc
      simp [charSplit, List.takeWhile]
    · simp only [charSplit, if_neg hc]
      have hne := charSplit_ne_nil sep rest
      cases h : charSplit sep rest with
      | nil => exact absurd h hne
      | cons p ps =>
        rw [h] at ih
        simp only [List.headD_cons] at ih
        simp only [List.headD_cons]
        simp only [decide_not] at ih
        simp [List.takeWhile_cons, hc, ih]

theorem takeWhile_ne_of_not_mem (sep : Char) :
    ∀ s : List Char, sep ∉ s → s.takeWhile (fun c => c ≠ sep) = s
  | [], _ => rfl
  | c :: rest, h => by
    have hc : ¬c = sep := fun hcs => h (hcs ▸ List.mem_cons_self c rest)
    have ih := takeWhile_ne_of_not_mem sep rest (fun hm => h (List.mem_cons_of_mem c hm))
    simp only [decide_not] at ih
    simp [List.takeWhile_cons, hc, ih]

theorem takeWhile_ne_append (sep : Char) :
    ∀ pre post, sep ∉ pre →
      (pre ++ sep :: post).takeWhile (fun c => c ≠ sep) = pre
  | [], post, _ => by simp [List.takeWhile_cons]
  | c :: pre, post, h => by
    have hc : ¬c = sep := fun hcs => h (hcs ▸ List.mem_cons_self c pre)
    have ih := takeWhile_ne_append sep pre post (fun hm => h (List.mem_cons_of_mem c hm))
    simp only [decide_not] at ih
    simp [List.takeWhile_cons, hc, ih]

theorem dropWhile_ne_append (sep : Char) :
    ∀ pre post, sep ∉ pre →
      (pre ++ sep :: post).dropWhile (fun c => c ≠ sep) = sep :: post
  | [], post, _ => by simp [List.dropWhile_cons]
  | c :: pre, post, h => by
    have hc : ¬c = sep := fun hcs => h (hcs ▸ List.mem_cons_self c pre)
    have ih := dropWhile_ne_append sep pre post (fun hm => h (List.mem_cons_of_mem c hm))
    simp only [decide_not] at ih
    simp [List.dropWhile_cons, hc, ih]

theorem count_of_splitFirst (sep : Char) (s pre post : List Char)
    (h : splitFirst sep s = some (pre, post)) :
    s.count sep = post.count sep + 1 := by
  obtain ⟨hs, hpre⟩ := splitFirst_structure sep s pre post h
  rw [hs, List.count_append, List.count_cons_self, List.count_eq_zero.mpr hpre]
  omega

theorem rustSplitn_length (sep : Char) :
    ∀ n s, (rustSplitn sep (n + 1) s).length = min (n + 1) (s.count sep + 1)
  | 0, s => by
    simp [rustSplitn]
  | n + 1, s => by
    show (rustSplitn sep (n + 2) s).length = _
    cases h : splitFirst sep s with
    | none =>
      have hnm : sep ∉ s := (splitFirst_eq_none sep s).mp h
      have hc : s.count sep = 0 := List.count_eq_zero.mpr hnm
      simp [rustSplitn, h, hc]
    | some p =>
      have hcount := count_of_splitFirst sep s p.1 p.2 (by rw [h])
      have ih := rustSplitn_length sep n p.2
      simp only [rustSplitn, h, List.length_cons, ih, hcount]
      omega

theorem rustSplitn_head (sep : Char) (n : Nat) (s : List Char) :
    (rustSplitn sep (n + 2) s).headD [] = s.takeWhile (fun c => c ≠ sep) := by
  cases h : splitFirst sep s with
  | none =>
    have hnm : sep ∉ s := (splitFirst_eq_none sep s).mp h
    have ht := takeWhile_ne_of_not_mem sep s hnm
    simp only [decide_not] at ht
    simp [rustSplitn, h, ht]
  | some p =>
    obtain ⟨hs, hpre⟩ := splitFirst_structure sep s p.1 p.2 (by rw [h])
    simp only [rustSplitn, h, List.headD_cons]
    rw [hs, takeWhile_ne_append sep p.1 p.2 hpre]

theorem splitFirst_isSome_of_count (sep : Char) (s : List Char)
    (h : 1 ≤ s.count sep) : ∃ p, splitFirst sep s = some p := by
  cases hsf : splitFirst sep s with
  | none =>
    have hnm : sep ∉ s := (splitFirst_eq_none sep s).mp hsf
    rw [List.count_eq_zero.mpr hnm] at h
    omega
  | some p => exact ⟨p, rfl⟩

theorem rustSplitn_four_structure (sep : Char) (s : List Char)
    (h : 3 ≤ s.count sep) :
    ∃ p0 p1 p2 r, rustSplitn sep 4 s = [p0, p1, p2, r] ∧
      s = p0 ++ sep :: (p1 ++ sep :: (p2 ++ sep :: r)) ∧
      sep ∉ p0 ∧ sep ∉ p1 ∧ sep ∉ p2 := by
  obtain ⟨q0, hsf0⟩ := splitFirst_isSome_of_count sep s (by omega)
  have hc0 := count_of_splitFirst sep s q0.1 q0.2 (by rw [hsf0])
  obtain ⟨q1, hsf1⟩ := splitFirst_isSome_of_count sep q0.2 (by omega)
  have hc1 := count_of_splitFirst sep q0.2 q1.1 q1.2 (by rw [hsf1])
  obtain ⟨q2, hsf2⟩ := splitFirst_isSome_of_count sep q1.2 (by omega)
  obtain ⟨hs0, hp0⟩ := splitFirst_structure sep s q0.1 q0.2 (by rw [hsf0])
  obtain ⟨hs1, hp1⟩ := splitFirst_structure sep q0.2 q1.1 q1.2 (by rw [hsf1])
  obtain ⟨hs2, hp2⟩ := splitFirst_structure sep q1.2 q2.1 q2.2 (by rw [hsf2])
  refine ⟨q0.1, q1.1, q2.1, q2.2, ?_, ?_, hp0, hp1, hp2⟩
  · simp [rustSplitn, hsf0, hsf1, hsf2]
  · rw [hs0, hs1, hs2]


/-! ## Claim theorems -/

theorem email_parts_length (email_text : String) :
    (rustSplitn '\n' 4 email_text.data).length = min 4 (email_text.data.count '\n' + 1) := by
  simpa using rustSplitn_length '\n' 3 email_text.data

/-- C1, counterexample: on the spec's own example text with fewer than three
newlines, `EmailBuilder::email` panics on the out-of-bounds index
`email_parts[3]`; it does not return a recoverable `MissingField` error. -/
theorem email_short_text_counterexample :
    EmailBuilder.email "webmaster@example.org" "\nAlice\nHello" =
        ComposeResult.panic PanicKind.indexOutOfBounds ∧
      EmailBuilder.email "webmaster@example.org" "\nAlice\nHello" ≠
        ComposeResult.recoverableError ComposeError.missingField := by
  decide

/-- C1, amended: for every rendered text with fewer than three newlines
(fewer than 4 parts after the split), `EmailBuilder::email` faults for that
request with an out-of-bounds index panic; in particular it neither succeeds
nor returns a recoverable error. -/
theorem email_short_text_panics (email_from email_text : String)
    (h : email_text.data.count '\n' < 3) :
    EmailBuilder.email email_from email_text =
      ComposeResult.panic PanicKind.indexOutOfBounds := by
  have hlen := email_parts_length email_text
  simp only [EmailBuilder.email]
  rw [if_pos (by rw [hlen]; omega)]

/-- C1, witness: the amended theorem applied to the concrete short text. -/
theorem email_short_text_panics_witness :
    ("\nAlice\nHello" : String).data.count '\n' < 3 ∧
      EmailBuilder.email "no-reply@example.org" "\nAlice\nHello" =
        ComposeResult.panic PanicKind.indexOutOfBounds :=
  ⟨by decide, email_short_text_panics "no-reply@example.org" "\nAlice\nHello" (by decide)⟩

/-- C2, counterexample: on a text whose first newline-delimited piece is
non-empty but which has fewer than three newlines, the fault is the
out-of-bounds indexing, not the preamble assertion, so the fault is not
always "via an assertion" as claimed. -/
theorem email_preamble_counterexample :
    ("NotEmpty" : String).data.takeWhile (fun c => c ≠ '\n') ≠ [] ∧
      EmailBuilder.email "webmaster@example.org" "NotEmpty" ≠
        ComposeResult.panic PanicKind.assertionFailed := by
  decide

/-- C2, amended: for every rendered text whose first newline-delimited piece
is non-empty, `EmailBuilder::email` faults for that request (never returning
`Ok` nor a recoverable error), and when the text contains at least three
newlines the fault is specifically the preamble assertion failing. -/
theorem email_nonempty_preamble_faults (email_from email_text : String)
    (h : email_text.data.takeWhile (fun c => c ≠ '\n') ≠ []) :
    (∃ k, EmailBuilder.email email_from email_text = ComposeResult.panic k) ∧
      (3 ≤ email_text.data.count '\n' →
        EmailBuilder.email email_from email_text =
          ComposeResult.panic PanicKind.assertionFailed) := by
  have hlen := email_parts_length email_text
  by_cases hlt : (rustSplitn '\n' 4 email_text.data).length < 4
  · have hcount : email_text.data.count '\n' < 3 := by rw [hlen] at hlt; omega
    refine ⟨⟨PanicKind.indexOutOfBounds, ?_⟩, fun hc => absurd hc (by omega)⟩
    simp only [EmailBuilder.email]
    rw [if_pos hlt]
  · have hcount : 3 ≤ email_text.data.count '\n' := by rw [hlen] at hlt; omega
    obtain ⟨p0, p1, p2, r, hsplit, hstruct, hp0, hp1, hp2⟩ :=
      rustSplitn_four_structure '\n' email_text.data hcount
    have hp0take : p0 = email_text.data.takeWhile (fun c => c ≠ '\n') := by
      rw [hstruct, takeWhile_ne_append '\n' p0 _ hp0]
    have hp0ne : ¬p0 = [] := by rw [hp0take]; exact h
    have hemail : EmailBuilder.email email_from email_text =
        ComposeResult.panic PanicKind.assertionFailed := by
      simp only [EmailBuilder.email, hsplit]
      rw [if_neg (by simp), if_neg (by simpa using hp0ne)]
    exact ⟨⟨PanicKind.assertionFailed, hemail⟩, fun _ => hemail⟩

/-- C2, witness: the amended theorem applied to a concrete text with a
non-empty first line and three newlines. -/
theorem email_nonempty_preamble_faults_witness :
    ("NotEmpty\na\nb\nc" : String).data.takeWhile (fun c => c ≠ '\n') ≠ [] ∧
      ((∃ k, EmailBuilder.email "no-reply@example.org" "NotEmpty\na\nb\nc" =
          ComposeResult.panic k) ∧
        (3 ≤ ("NotEmpty\na\nb\nc" : String).data.count '\n' →
          EmailBuilder.email "no-reply@example.org" "NotEmpty\na\nb\nc" =
            ComposeResult.panic PanicKind.assertionFailed)) :=
  ⟨by decide, email_nonempty_preamble_faults "no-reply@example.org" "NotEmpty\na\nb\nc" (by decide)⟩

/-- C3: for every rendered text made of an empty first line, a second and a
third line free of newlines, and an arbitrary remainder, `EmailBuilder::email`
splits at the first three newlines only and succeeds with the second line as
display name, the third as subject, and the whole remainder (further newlines
included) as body. -/
theorem email_splits_at_first_three_newlines (email_from : String) (a s b : List Char)
    (ha : '\n' ∉ a) (hs : '\n' ∉ s) :
    EmailBuilder.email email_from (String.mk ('\n' :: (a ++ '\n' :: (s ++ '\n' :: b)))) =
      ComposeResult.ok
        (EmailMessage.mk email_from (String.mk a) (String.mk s) (String.mk b)) := by
  have hsf1 := splitFirst_append '\n' a (s ++ '\n' :: b) ha
  have hsf2 := splitFirst_append '\n' s b hs
  have hsplit : rustSplitn '\n' 4 ('\n' :: (a ++ '\n' :: (s ++ '\n' :: b))) = [[], a, s, b] := by
    simp [rustSplitn, splitFirst, hsf1, hsf2]
  have hdata : (String.mk ('\n' :: (a ++ '\n' :: (s ++ '\n' :: b)))).data =
      '\n' :: (a ++ '\n' :: (s ++ '\n' :: b)) := rfl
  simp only [EmailBuilder.email, hdata, hsplit]
  rw [if_neg (by simp), if_pos (by simp [List.getD])]
  simp [List.getD]

/-- C3, witness: the theorem applied to the spec's example text, whose body
keeps the remaining newline. -/
theorem email_splits_at_first_three_newlines_witness :
    ('\n' ∉ ("Alice" : String).data ∧ '\n' ∉ ("Hello" : String).data) ∧
      EmailBuilder.email "no-reply@example.org" "\nAlice\nHello\nBody line 1\nBody line 2" =
        ComposeResult.ok (EmailMessage.mk "no-reply@example.org" "Alice" "Hello"
          "Body line 1\nBody line 2") := by
  refine ⟨⟨by decide, by decide⟩, ?_⟩
  have h := email_splits_at_first_three_newlines "no-reply@example.org"
    ("Alice" : String).data ("Hello" : String).data
    ("Body line 1\nBody line 2" : String).data (by decide) (by decide)
  have e : String.mk ('\n' :: (("Alice" : String).data ++ '\n' ::
      (("Hello" : String).data ++ '\n' :: ("Body line 1\nBody line 2" : String).data))) =
      "\nAlice\nHello\nBody line 1\nBody line 2" := by decide
  rw [e] at h
  exact h

/-- C6: every successfully composed message carries the configured sender
address (`config.ui.email_from`) as the routable "From" address, paired with
the display name taken from the rendered text's second line; the rendered
text never controls the routable address. -/
theorem email_from_header_pairs_config_address (email_from email_text : String)
    (m : EmailMessage)
    (h : EmailBuilder.email email_from email_text = ComposeResult.ok m) :
    m.from_addr = email_from ∧
      m.from_display_name = String.mk ((charSplit '\n' email_text.data).getD 1 []) := by
  have hlen := email_parts_length email_text
  by_cases hlt : (rustSplitn '\n' 4 email_text.data).length < 4
  · exfalso
    have : EmailBuilder.email email_from email_text =
        ComposeResult.panic PanicKind.indexOutOfBounds := by
      simp only [EmailBuilder.email]
      rw [if_pos hlt]
    rw [this] at h
    exact ComposeResult.noConfusion h
  · have hcount : 3 ≤ email_text.data.count '\n' := by rw [hlen] at hlt; omega
    obtain ⟨p0, p1, p2, r, hsplit, hstruct, hp0, hp1, hp2⟩ :=
      rustSplitn_four_structure '\n' email_text.data hcount
    have hchar : (charSplit '\n' email_text.data).getD 1 [] = p1 := by
      rw [hstruct, charSplit_append '\n' p0 _ hp0]
      simp only [List.getD_cons_succ, List.getD_cons_zero]
      rw [charSplit_append '\n' p1 _ hp1]
      simp [List.getD_cons_zero]
    by_cases hp0e : p0 = []
    · have hok : EmailBuilder.email email_from email_text =
          ComposeResult.ok (EmailMessage.mk email_from (String.mk p1)
            (String.mk p2) (String.mk r)) := by
        simp only [EmailBuilder.email, hsplit]
        rw [if_neg (by simp), if_pos (by simpa using hp0e)]
        simp [List.getD]
      rw [hok] at h
      have hm := (ComposeResult.ok.inj h).symm
      rw [hm, hchar]
      exact ⟨rfl, rfl⟩
    · exfalso
      have : EmailBuilder.email email_from email_text =
          ComposeResult.panic PanicKind.assertionFailed := by
        simp only [EmailBuilder.email, hsplit]
        rw [if_neg (by simp), if_neg (by simpa using hp0e)]
      rw [this] at h
      exact ComposeResult.noConfusion h

/-- C6, witness: the theorem applied to a concretely composed message. -/
theorem email_from_header_pairs_config_address_witness :
    EmailMessage.from_addr (EmailMessage.mk "no-reply@example.org" "Bob" "Hi" "Body")
        = "no-reply@example.org" ∧
      EmailMessage.from_display_name (EmailMessage.mk "no-reply@example.org" "Bob" "Hi" "Body")
        = String.mk ((charSplit '\n' ("\nBob\nHi\nBody" : String).data).getD 1 []) :=
  email_from_header_pairs_config_address "no-reply@example.org" "\nBob\nHi\nBody"
    (EmailMessage.mk "no-reply@example.org" "Bob" "Hi" "Body") (by decide)

/-- C4: whenever the percent-decoded form `d` of the raw form value contains
exactly one `@`, a non-empty piece before it and a `.` somewhere after it,
`from_form_value` succeeds and wraps the decoded string `d` itself — no case
or whitespace normalization beyond the transport decoding. -/
theorem from_form_value_accepts_valid (v d : String)
    (hdec : urlDecode v = some d)
    (hone : d.data.count '@' = 1)
    (hlocal : d.data.takeWhile (fun c => c ≠ '@') ≠ [])
    (hdot : '.' ∈ (d.data.dropWhile (fun c => c ≠ '@')).tail) :
    EmailAddress.from_form_value v = Except.ok (EmailAddress.mk d) := by
  obtain ⟨p, hsf⟩ := splitFirst_isSome_of_count '@' d.data (by omega)
  obtain ⟨hstruct, hpre⟩ := splitFirst_structure '@' d.data p.1 p.2 (by rw [hsf])
  have hcp := count_of_splitFirst '@' d.data p.1 p.2 (by rw [hsf])
  have hpost : '@' ∉ p.2 := List.count_eq_zero.mp (by omega)
  have hchar : charSplit '@' d.data = [p.1, p.2] := by
    rw [hstruct, charSplit_append '@' p.1 p.2 hpre, charSplit_of_not_mem '@' p.2 hpost]
  have hloc : p.1 ≠ [] := by
    rw [hstruct, takeWhile_ne_append '@' p.1 p.2 hpre] at hlocal
    exact hlocal
  have hdot2 : '.' ∈ p.2 := by
    rw [hstruct, dropWhile_ne_append '@' p.1 p.2 hpre] at hdot
    exact hdot
  simp only [EmailAddress.from_form_value, hdec, hchar]
  rw [if_neg (by simp), if_neg (by simpa using hloc), if_neg (by simpa using hdot2)]

/-- C4, witness: the theorem applied to a plain (already-decoded) valid
address. -/
theorem from_form_value_accepts_valid_witness :
    (urlDecode "alice@example.org" = some "alice@example.org" ∧
        ("alice@example.org" : String).data.count '@' = 1) ∧
      EmailAddress.from_form_value "alice@example.org" =
        Except.ok (EmailAddress.mk "alice@example.org") :=
  ⟨⟨by decide, by decide⟩,
    from_form_value_accepts_valid "alice@example.org" "alice@example.org"
      (by decide) (by decide) (by decide) (by decide)⟩

/-- C5: the three malformed shapes are rejected with the matching errors: a
missing domain dot, an empty local part, and a wrong number of `@`-separated
parts, respectively. -/
theorem from_form_value_rejects_malformed :
    EmailAddress.from_form_value "a@b" = Except.error ValidationError.missingDomainDot ∧
      EmailAddress.from_form_value "@b.c" = Except.error ValidationError.emptyLocalPart ∧
      EmailAddress.from_form_value "a@b@c.d" = Except.error ValidationError.malformedAddress := by
  decide

/-- C10: the three syntactic rules are applied to the percent-decoded form of
the raw input, not to the raw form: any raw value whose percent-decoding
fails is rejected with the decoding error before any syntactic rule runs, and
the raw value `a%40b.c` — which contains no `@` at all — is accepted because
its decoded form `a@b.c` satisfies the rules. -/
theorem from_form_value_checks_decoded_form :
    (∀ v : String, urlDecode v = none →
        EmailAddress.from_form_value v = Except.error ValidationError.utf8Error) ∧
      EmailAddress.from_form_value "a%40b.c" = Except.ok (EmailAddress.mk "a@b.c") ∧
      '@' ∉ ("a%40b.c" : String).data := by
  refine ⟨fun v hv => ?_, by decide, by decide⟩
  simp only [EmailAddress.from_form_value, hv]

/-- C10, witness: a raw input whose percent-decoding produces invalid UTF-8
is rejected as a decoding error even though its raw shape passes the rules. -/
theorem from_form_value_checks_decoded_form_witness :
    urlDecode "a%FF@b.c" = none ∧
      EmailAddress.from_form_value "a%FF@b.c" = Except.error ValidationError.utf8Error :=
  ⟨by decide, from_form_value_checks_decoded_form.1 "a%FF@b.c" (by decide)⟩

/-- C7: decoding the configured signing key fails exactly when the hex string
is malformed — odd length or a non-hex character somewhere — and otherwise
succeeds, whatever the (even) length, wrapping the decoded bytes. -/
theorem deserialize_fails_iff_malformed_hex (s : String) :
    hex_signing_key.deserialize s = none ↔
      (s.length % 2 = 1 ∨ ∃ c ∈ s.data, isHexDigit c = false) := by
  have hs := hexDecodeList_isSome s.data
  have hlen : s.length = s.data.length := rfl
  unfold hex_signing_key.deserialize
  cases h : hexDecodeList s.data with
  | none =>
    rw [h] at hs
    simp only [Option.isSome_none] at hs
    simp only [Option.map_none']
    constructor
    · intro _
      by_cases hA : s.data.length % 2 = 0
      · rw [decide_eq_true hA, Bool.true_and] at hs
        obtain ⟨c, hcmem, hcp⟩ := List.all_eq_false.mp hs.symm
        exact Or.inr ⟨c, hcmem, by simpa using hcp⟩
      · exact Or.inl (by omega)
    · intro _
      trivial
  | some b =>
    rw [h] at hs
    simp only [Option.isSome_some] at hs
    have hs2 := hs.symm
    rw [Bool.and_eq_true] at hs2
    obtain ⟨hd, ha⟩ := hs2
    simp only [Option.map_some']
    constructor
    · intro hc
      exact Option.noConfusion hc
    · intro hr
      rcases hr with hodd | ⟨c, hcmem, hcf⟩
      · have heven : s.data.length % 2 = 0 := by simpa using hd
        omega
      · have hct := List.all_eq_true.mp ha c hcmem
        rw [hcf] at hct
        exact Bool.noConfusion hct

/-- C8: hex decoding round-trips hex encoding — for any byte sequence, the
decoded key wraps exactly the original bytes, so any keyed function (an
HMAC-SHA256 in the source) produces the same output for every message with
the decoded key as with a key built directly from the bytes. -/
theorem deserialize_roundtrips_hexEncode (b : List Nat) (hb : ∀ x ∈ b, x < 256) :
    hex_signing_key.deserialize (hexEncode b) = some (SigningKey.mk b) ∧
      ∀ (hmacSha256 : SigningKey → List Nat → List Nat) (msg : List Nat),
        (hex_signing_key.deserialize (hexEncode b)).map (fun k => hmacSha256 k msg) =
          some (hmacSha256 (SigningKey.mk b) msg) := by
  have hkey : hex_signing_key.deserialize (hexEncode b) = some (SigningKey.mk b) := by
    unfold hex_signing_key.deserialize hexEncode
    have hdata : (String.mk (hexEncodeList b)).data = hexEncodeList b := rfl
    rw [hdata, hexDecodeList_hexEncodeList b hb]
    rfl
  exact ⟨hkey, fun mac msg => by rw [hkey]; rfl⟩

/-- C8, witness: the theorem applied to the concrete byte sequence
`[0, 171, 255]`, whose lowercase hex encoding is `00abff`. -/
theorem deserialize_roundtrips_hexEncode_witness :
    (∀ x ∈ [0, 171, 255], x < 256) ∧
      hex_signing_key.deserialize (hexEncode [0, 171, 255]) =
        some (SigningKey.mk [0, 171, 255]) :=
  ⟨by decide, (deserialize_roundtrips_hexEncode [0, 171, 255] (by decide)).1⟩

theorem foldl_append_pair_base :
    ∀ (params : List (String × String)) (u : UrlState),
      (params.foldl (fun u p => append_pair u p.1 p.2) u).base = u.base
  | [], _ => rfl
  | p :: ps, u => by
    rw [List.foldl_cons, foldl_append_pair_base ps (append_pair u p.1 p.2)]
    rfl

theorem foldl_append_pair_query_some :
    ∀ (params : List (String × String)) (u : UrlState) (q : String),
      u.query = some q →
      ∃ q2, (params.foldl (fun u p => append_pair u p.1 p.2) u).query = some q2
  | [], _, q, h => ⟨q, h⟩
  | p :: ps, u, q, h => by
    rw [List.foldl_cons]
    exact foldl_append_pair_query_some ps (append_pair u p.1 p.2)
      (q ++ "&" ++ formEncode p.1 ++ "=" ++ formEncode p.2) (by simp [append_pair, h])

theorem urlToString_append_pair_some (u : UrlState) (q : String) (h : u.query = some q)
    (n v : String) :
    urlToString (append_pair u n v) =
      urlToString u ++ "&" ++ formEncode n ++ "=" ++ formEncode v := by
  simp [urlToString, append_pair, h, String.append_assoc]

theorem url_query_append (base : String) (params : List (String × String))
    (p : String × String) :
    url_query base (params ++ [p]) =
      (if params = [] then base ++ "?" else url_query base params ++ "&")
        ++ formEncode p.1 ++ "=" ++ formEncode p.2 := by
  cases params with
  | nil =>
    simp [url_query, urlToString, append_pair, String.append_assoc]
  | cons p0 ps0 =>
    obtain ⟨q2, hq⟩ := foldl_append_pair_query_some ps0
      (append_pair (UrlState.mk base none) p0.1 p0.2)
      (formEncode p0.1 ++ "=" ++ formEncode p0.2) rfl
    simp only [url_query, List.foldl_append, List.foldl_cons, List.foldl_nil]
    rw [if_neg (by simp), urlToString_append_pair_some _ q2 hq p.1 p.2]

/-- C9: `url_query!` appends each named parameter at the end of the query in
exactly the order supplied, form-urlencoding both name and value; on the
spec's example it produces `https://x/y?token=abc&sig=def`, encoding is
exercised by the second example, and equal inputs give byte-identical
output. -/
theorem url_query_appends_in_order :
    (∀ (base : String) (params : List (String × String)) (p : String × String),
        url_query base (params ++ [p]) =
          (if params = [] then base ++ "?" else url_query base params ++ "&")
            ++ formEncode p.1 ++ "=" ++ formEncode p.2) ∧
      url_query "https://x/y" [("token", "abc"), ("sig", "def")] =
        "https://x/y?token=abc&sig=def" ∧
      url_query "https://x/y" [("a b", "c&d")] = "https://x/y?a+b=c%26d" ∧
      (∀ (base : String) (params : List (String × String))
          (base2 : String) (params2 : List (String × String)),
        base = base2 → params = params2 → url_query base params = url_query base2 params2) :=
  ⟨url_query_append, by decide, by decide, fun _ _ _ _ h1 h2 => by rw [h1, h2]⟩

/-- C9, witness: the append-in-order equation at the spec's example
parameters, and determinism at concrete equal inputs. -/
theorem url_query_appends_in_order_witness :
    url_query "https://x/y" ([("token", "abc")] ++ [("sig", "def")]) =
        (if [("token", "abc")] = ([] : List (String × String)) then "https://x/y" ++ "?"
          else url_query "https://x/y" [("token", "abc")] ++ "&")
          ++ formEncode ("sig", "def").1 ++ "=" ++ formEncode ("sig", "def").2 ∧
      url_query "https://x/y" [] = url_query "https://x/y" [] :=
  ⟨url_query_appends_in_order.1 "https://x/y" [("token", "abc")] ("sig", "def"),
    url_query_appends_in_order.2.2.2 "https://x/y" [] "https://x/y" [] rfl rfl⟩

end FFMonitor
